import Mathlib

/-!
Verification of `tools/remove_unused_imports.py`.

The script walks a directory of `.java` files and, for each file, removes
`import` lines whose imported simple name (the last dotted segment) does not
occur as a whole-word token anywhere else in the file.  We embed the script
shallowly: file text and lines are `List Char`, the per-file pass is a pure
function, and the console output of the whole run is a list of lines.

Character classes (`\w`, `\s`, word boundaries) are modelled on their ASCII
meaning, which is what the processed Java sources use.
-/

namespace RemoveUnusedImports

/-- ASCII model of the whitespace class used by `str.strip` and the regex
class `\s`. -/
def isSpace (c : Char) : Bool :=
  c == ' ' || c == '\t' || c == '\n' || c == '\r' || c == '\x0b' || c == '\x0c'

/-- The line-break characters recognised by Python's `str.splitlines`. -/
def isLineBreak (c : Char) : Bool :=
  c == '\n' || c == '\r' || c == '\x0b' || c == '\x0c' || c == '\x1c' ||
  c == '\x1d' || c == '\x1e' || c == '\x85' || c.toNat == 8232 || c.toNat == 8233

/-- ASCII model of the regex word class `\w` (letters, digits, underscore). -/
def isWordChar (c : Char) : Bool :=
  c.isAlpha || c.isDigit || c == '_'

/-- The characters admitted by the regex bracket `[\w\.]`. -/
def wordDot (c : Char) : Bool :=
  isWordChar c || c == '.'

/-- Worker for `splitlines`: `afterCR` records that the previous character was
a carriage return, so that a following line feed is swallowed (a `"\r\n"` pair
counts as a single break, as in Python).  `acc` holds the current line in
reverse. -/
def slAux : Bool → List Char → List Char → List (List Char)
  | _, acc, [] => if acc.isEmpty then [] else [acc.reverse]
  | afterCR, acc, c :: rest =>
    if afterCR = true ∧ c = '\n' then slAux false acc rest
    else if c = '\r' then acc.reverse :: slAux true [] rest
    else if isLineBreak c = true then acc.reverse :: slAux false [] rest
    else slAux false (c :: acc) rest

/-- Model of Python's `str.splitlines`: split at line breaks, a trailing break
produces no extra empty line. -/
def splitlines (cs : List Char) : List (List Char) := slAux false [] cs

/-- Model of Python's `str.strip`. -/
def stripL (l : List Char) : List Char :=
  ((l.dropWhile isSpace).reverse.dropWhile isSpace).reverse

/-- The test selecting the candidate import lines:
`l.strip().startswith('import ') and not l.strip().startswith('import static')`. -/
def isImportLine (l : List Char) : Bool :=
  ("import ".data).isPrefixOf (stripL l) &&
    !(("import static".data).isPrefixOf (stripL l))

/-- Right word boundary: the text following a match may not continue with a
word character. -/
def nextOk (t : List Char) : Bool :=
  match t with
  | [] => true
  | d :: _ => !isWordChar d

/-- `w` occurs at the start of `s`, ended by a word boundary. -/
def matchHere (s w : List Char) : Bool :=
  w.isPrefixOf s && nextOk (s.drop w.length)

/-- Worker for `containsWord`: `prevOk` records that the current position sits
at a left word boundary. -/
def containsWordAux (w : List Char) : Bool → List Char → Bool
  | _, [] => false
  | prevOk, c :: rest =>
    (prevOk && matchHere (c :: rest) w) || containsWordAux w (!isWordChar c) rest

/-- Model of `re.search(r'\b' + re.escape(w) + r'\b', s) is not None` for a
word `w` made of word characters. -/
def containsWord (s w : List Char) : Bool := containsWordAux w true s

/-- Model of `'\n'.join`. -/
def joinNL : List (List Char) → List Char
  | [] => []
  | [l] => l
  | l :: ls => l ++ '\n' :: joinNL ls

/-- The simple name captured by group 2 of the import regex: the maximal run
of word characters ending the dotted token. -/
def simpleOf (r2 : List Char) : List Char :=
  (((r2.takeWhile wordDot).reverse).takeWhile isWordChar).reverse

/-- Matching of `([\w\.]+)\.(\w+)\s*;\s*` against the text following
`import` and its whitespace.  The dotted token must contain a dot splitting it
into a non-empty package part and a non-empty simple name, and must be
followed (after optional spaces) by a semicolon; as with `re.match`, anything
may follow the semicolon. -/
def matchImportCore (r2 : List Char) : Option (List Char) :=
  match (r2.dropWhile wordDot).dropWhile isSpace with
  | ';' :: _ =>
    if simpleOf r2 = [] then none
    else if (simpleOf r2).length + 2 ≤ (r2.takeWhile wordDot).length then some (simpleOf r2)
    else none
  | _ => none

/-- Model of `re.match(r'\s*import\s+([\w\.]+)\.(\w+)\s*;\s*', l)`, returning
the captured simple name when the pattern matches a prefix of `l`. -/
def matchImport (l : List Char) : Option (List Char) :=
  if ("import".data).isPrefixOf (l.dropWhile isSpace) then
    if ((l.dropWhile isSpace).drop 6).takeWhile isSpace = [] then none
    else matchImportCore (((l.dropWhile isSpace).drop 6).dropWhile isSpace)
  else none

/-- Line `i` (with content `l`) is flagged for removal: it is a candidate
line, the regex matches, and the simple name has no whole-word occurrence in
the other lines joined by newlines. -/
def importCandidate (lines : List (List Char)) (i : Nat) (l : List Char) : Bool :=
  isImportLine l &&
    (match matchImport l with
     | none => false
     | some s => !containsWord (joinNL (lines.eraseIdx i)) s)

/-- Worker collecting the flagged indices in order, starting at index `i`. -/
def toRemoveGo (lines : List (List Char)) : Nat → List (List Char) → List Nat
  | _, [] => []
  | i, l :: rest =>
    if importCandidate lines i l = true then i :: toRemoveGo lines (i + 1) rest
    else toRemoveGo lines (i + 1) rest

/-- The list `to_remove_idxs` computed by the script for one file. -/
def toRemoveIdxs (lines : List (List Char)) : List Nat := toRemoveGo lines 0 lines

/-- Worker for `keepLines`. -/
def keepGo (rm : List Nat) : Nat → List (List Char) → List (List Char)
  | _, [] => []
  | i, l :: rest => if i ∈ rm then keepGo rm (i + 1) rest else l :: keepGo rm (i + 1) rest

/-- `[ln for idx,ln in enumerate(lines) if idx not in to_remove_idxs]`. -/
def keepLines (lines : List (List Char)) (rm : List Nat) : List (List Char) :=
  keepGo rm 0 lines

/-- One file's pass: `some newLines` exactly when the script writes the file
back, `none` when the file is left untouched. -/
def processFile (lines : List (List Char)) : Option (List (List Char)) :=
  if lines.any isImportLine then
    if toRemoveIdxs lines = [] then none
    else some (keepLines lines (toRemoveIdxs lines))
  else none

/-- The pass on the raw file text: split into lines, process, join with
newlines (the written content). -/
def processText (text : List Char) : Option (List Char) :=
  (processFile (splitlines text)).map joinNL

/-- Decimal digits of a number, as printed. -/
def natChars (n : Nat) : List Char := (Nat.repr n).data

/-- The per-file console line `Removed <n> imports from <p>`. -/
def msgRemoved (n : Nat) (p : List Char) : List Char :=
  ("Removed ".data) ++ natChars n ++ (" imports from ".data) ++ p

/-- The final console line `DONE. Total removed: <n>`. -/
def msgDone (n : Nat) : List Char :=
  ("DONE. Total removed: ".data) ++ natChars n

/-- How many import lines the script removes from a file with this text. -/
def fileRemovedCount (text : List Char) : Nat :=
  (toRemoveIdxs (splitlines text)).length

/-- The main loop over the files: returns the console lines printed inside the
loop and the final value of the `removed` counter, threaded as `acc`. -/
def runAux : List (List Char × List Char) → Nat → List (List Char) × Nat
  | [], acc => ([], acc)
  | f :: rest, acc =>
    if (splitlines f.2).any isImportLine then
      if toRemoveIdxs (splitlines f.2) = [] then runAux rest acc
      else
        (msgRemoved (toRemoveIdxs (splitlines f.2)).length f.1 ::
            (runAux rest (acc + (toRemoveIdxs (splitlines f.2)).length)).1,
          (runAux rest (acc + (toRemoveIdxs (splitlines f.2)).length)).2)
    else runAux rest acc

/-- The whole console output of a run over `files` (path, text pairs): the
loop's lines followed by the final summary line. -/
def runOutput (files : List (List Char × List Char)) : List (List Char) :=
  (runAux files 0).1 ++ [msgDone (runAux files 0).2]

/-- Whole-word occurrence of `s` in some line with index different from `i`,
scanning from index `j`. -/
def anyOtherGo (s : List Char) (i : Nat) : Nat → List (List Char) → Bool
  | _, [] => false
  | j, l :: rest => ((j != i) && containsWord l s) || anyOtherGo s i (j + 1) rest

/-- Worker for `usageStable`. -/
def usageStableGo (out : List (List Char)) : Nat → List (List Char) → Bool
  | _, [] => true
  | i, l :: rest =>
    (match matchImport l with
     | none => true
     | some s => anyOtherGo s i 0 out) && usageStableGo out (i + 1) rest

/-- Every line of `out` that parses as an import has its simple name occurring
as a whole word in some other line of `out`.  This is the side condition under
which a second run of the script is idempotent. -/
def usageStable (out : List (List Char)) : Bool := usageStableGo out 0 out

/-! ### Generic list helpers -/

theorem getD_of_get? {α : Type} : ∀ (l : List α) (n : Nat) (a b : α),
    l.get? n = some a → l.getD n b = a := by
  intro l
  induction l with
  | nil => intro n a b h; simp [List.get?_nil] at h
  | cons x xs ih =>
    intro n a b h
    cases n with
    | zero => rw [List.get?_cons_zero] at h; cases h; rfl
    | succ m => rw [List.get?_cons_succ] at h; simpa [List.getD] using ih m a b h

theorem dropWhile_head_false {α : Type} {p : α → Bool} :
    ∀ {l : List α} {c : α} {r : List α}, l.dropWhile p = c :: r → p c = false := by
  intro l
  induction l with
  | nil => intro c r h; simp [List.dropWhile] at h
  | cons x xs ih =>
    intro c r h
    rw [List.dropWhile_cons] at h
    split at h
    · exact ih h
    · cases h; simpa using ‹¬ p x = true›

theorem isPrefixOf_append_self {α : Type} [BEq α] [LawfulBEq α] (w B : List α) :
    w.isPrefixOf (w ++ B) = true :=
  List.isPrefixOf_iff_prefix.mpr (List.prefix_append w B)

theorem mem_eraseIdx_get? {α : Type} :
    ∀ (l : List α) (i : Nat) (x : α), x ∈ l.eraseIdx i → ∃ j, j ≠ i ∧ l.get? j = some x := by
  intro l
  induction l with
  | nil => intro i x h; simp [List.eraseIdx] at h
  | cons a as ih =>
    intro i x h
    cases i with
    | zero =>
      obtain ⟨k, hk⟩ := List.mem_iff_get?.mp (by simpa [List.eraseIdx] using h)
      exact ⟨k + 1, by omega, by simpa [List.get?] using hk⟩
    | succ n =>
      rcases List.mem_cons.mp (by simpa [List.eraseIdx] using h) with h1 | h2
      · exact ⟨0, by omega, by simp [List.get?, h1]⟩
      · obtain ⟨j, hj, hget⟩ := ih n x h2
        exact ⟨j + 1, by omega, by simpa [List.get?] using hget⟩

theorem get?_mem_eraseIdx {α : Type} :
    ∀ (l : List α) (i j : Nat) (x : α), l.get? j = some x → j ≠ i → x ∈ l.eraseIdx i := by
  intro l
  induction l with
  | nil => intro i j x h _; simp [List.get?] at h
  | cons a as ih =>
    intro i j x h hne
    cases i with
    | zero =>
      cases j with
      | zero => exact absurd rfl hne
      | succ k => exact List.get?_mem (by simpa [List.eraseIdx, List.get?] using h)
    | succ n =>
      cases j with
      | zero => simp [List.get?] at h; simp [List.eraseIdx, h]
      | succ k =>
        simp only [List.get?] at h
        exact List.mem_cons_of_mem _ (ih n k x h (by omega))

/-! ### Facts about individual characters -/

theorem isWordChar_nl : isWordChar '\n' = false := by decide

theorem isWordChar_dot : isWordChar '.' = false := by decide

/-! ### Whole-word search -/

theorem matchHere_append_nl (b : List Char) :
    ∀ (w y : List Char), (∀ c ∈ w, isWordChar c = true) →
      matchHere (y ++ '\n' :: b) w = matchHere y w := by
  intro w
  induction w with
  | nil =>
    intro y _
    cases y with
    | nil => simp [matchHere, nextOk, List.isPrefixOf, isWordChar_nl]
    | cons yc yt => simp [matchHere, nextOk, List.isPrefixOf]
  | cons wc wt ih =>
    intro y hall
    have hwc : isWordChar wc = true := hall wc (by simp)
    cases y with
    | nil =>
      have hne : (wc == '\n') = false := by
        refine beq_eq_false_iff_ne.mpr fun h => ?_
        rw [h, isWordChar_nl] at hwc
        exact absurd hwc (by simp)
      simp [matchHere, List.isPrefixOf, hne]
    | cons yc yt =>
      have h1 : matchHere ((yc :: yt) ++ '\n' :: b) (wc :: wt) =
          ((wc == yc) && matchHere (yt ++ '\n' :: b) wt) := by
        simp only [List.cons_append, matchHere, List.isPrefixOf, List.append_eq,
          List.length_cons, List.drop_succ_cons, Bool.and_assoc]
      have h2 : matchHere (yc :: yt) (wc :: wt) = ((wc == yc) && matchHere yt wt) := by
        simp only [matchHere, List.isPrefixOf, List.append_eq, List.length_cons,
          List.drop_succ_cons, Bool.and_assoc]
      rw [h1, h2, ih yt (fun c hc => hall c (List.mem_cons_of_mem _ hc))]

theorem cw_aux_split {w : List Char} (hw : w ≠ []) (hall : ∀ c ∈ w, isWordChar c = true)
    (b : List Char) :
    ∀ (a : List Char) (p : Bool),
      containsWordAux w p (a ++ '\n' :: b) =
        (containsWordAux w p a || containsWordAux w true b) := by
  intro a
  induction a with
  | nil =>
    intro p
    cases w with
    | nil => exact absurd rfl hw
    | cons wc wt =>
      have hwc : isWordChar wc = true := hall wc (by simp)
      have hne : (wc == '\n') = false := by
        refine beq_eq_false_iff_ne.mpr fun h => ?_
        rw [h, isWordChar_nl] at hwc
        exact absurd hwc (by simp)
      simp [containsWordAux, matchHere, List.isPrefixOf, hne, isWordChar_nl]
  | cons x a' ih =>
    intro p
    simp only [List.cons_append, containsWordAux, List.append_eq]
    have hmh : matchHere (x :: (a' ++ '\n' :: b)) w = matchHere (x :: a') w := by
      rw [← List.cons_append]
      exact matchHere_append_nl b w (x :: a') hall
    rw [hmh, ih (!isWordChar x), Bool.or_assoc]

theorem containsWord_joinNL {w : List Char} (hw : w ≠ [])
    (hall : ∀ c ∈ w, isWordChar c = true) :
    ∀ ls : List (List Char),
      containsWord (joinNL ls) w = ls.any (fun l => containsWord l w) := by
  intro ls
  induction ls with
  | nil => simp [joinNL, containsWord, containsWordAux]
  | cons x tl ih =>
    cases tl with
    | nil => simp [joinNL, containsWord]
    | cons y tl' =>
      have hj : joinNL (x :: y :: tl') = x ++ '\n' :: joinNL (y :: tl') := rfl
      rw [List.any_cons, ← ih, hj]
      exact cw_aux_split hw hall (joinNL (y :: tl')) x true

theorem cw_split_aux {w : List Char} (hw : w ≠ []) (B : List Char) (hB : nextOk B = true) :
    ∀ (A : List Char) (c : Char), isWordChar c = false →
      ∀ p : Bool, containsWordAux w p (A ++ c :: (w ++ B)) = true := by
  intro A
  induction A with
  | nil =>
    intro c hc p
    cases w with
    | nil => exact absurd rfl hw
    | cons wc wt =>
      have hmh : matchHere ((wc :: wt) ++ B) (wc :: wt) = true := by
        simp [matchHere, isPrefixOf_append_self,
          show ((wc :: wt) ++ B).drop (wc :: wt).length = B from List.drop_left _ _, hB]
      simp only [List.nil_append, containsWordAux, hc, Bool.not_false]
      rw [List.cons_append] at hmh
      simp [containsWordAux, hmh]
  | cons x A' ih =>
    intro c hc p
    simp only [List.cons_append, containsWordAux, List.append_eq]
    rw [ih c hc (!isWordChar x)]
    simp

/-- A word occurring inside a list of characters, with a non-word character
before it and a word boundary after it, is found by `containsWord`. -/
theorem containsWord_split (A : List Char) (c : Char) {w : List Char} (B : List Char)
    (hc : isWordChar c = false) (hw : w ≠ []) (hB : nextOk B = true) :
    containsWord (A ++ c :: (w ++ B)) w = true :=
  cw_split_aux hw B hB A c hc true

/-! ### Inversion of the import regex -/

theorem matchImportCore_some {r2 s : List Char} (h : matchImportCore r2 = some s) :
    s ≠ [] ∧ (∀ c ∈ s, isWordChar c = true) ∧
      ∃ A B, r2 = A ++ '.' :: (s ++ B) ∧ nextOk B = true := by
  unfold matchImportCore at h
  split at h
  case h_2 => exact absurd h (by simp)
  case h_1 _ _ _ =>
    split at h
    · exact absurd h (by simp)
    · split at h
      · rename_i hne hlen
        cases h
        refine ⟨hne, ?_, ?_⟩
        · intro c hc
          have hcrev : c ∈ ((r2.takeWhile wordDot).reverse).takeWhile isWordChar := by
            simpa [simpleOf, List.mem_reverse] using hc
          exact List.mem_takeWhile_imp hcrev
        · -- decompose the dotted token
          have hsrev : (simpleOf r2).reverse =
              ((r2.takeWhile wordDot).reverse).takeWhile isWordChar := by
            simp [simpleOf]
          have htw : (r2.takeWhile wordDot).reverse =
              (simpleOf r2).reverse ++ ((r2.takeWhile wordDot).reverse).dropWhile isWordChar := by
            rw [hsrev]
            exact (List.takeWhile_append_dropWhile _ _).symm
          have hlen2 : (r2.takeWhile wordDot).length =
              (simpleOf r2).length + (((r2.takeWhile wordDot).reverse).dropWhile isWordChar).length := by
            have := congrArg List.length htw
            simpa using this
          rcases hrr : ((r2.takeWhile wordDot).reverse).dropWhile isWordChar with _ | ⟨h0, rr'⟩
          · rw [hrr] at hlen2; simp at hlen2; omega
          · have hh0 : isWordChar h0 = false := dropWhile_head_false hrr
            have hh0t : h0 ∈ r2.takeWhile wordDot := by
              have : h0 ∈ (r2.takeWhile wordDot).reverse := by
                rw [htw, hrr]; exact List.mem_append_right _ (by simp)
              simpa [List.mem_reverse] using this
            have hwd : wordDot h0 = true := List.mem_takeWhile_imp hh0t
            have hdot : h0 = '.' := by
              unfold wordDot at hwd
              rw [hh0] at hwd
              simpa using hwd
            have ht : r2.takeWhile wordDot = rr'.reverse ++ '.' :: simpleOf r2 := by
              have := congrArg List.reverse htw
              rw [List.reverse_reverse, hrr] at this
              rw [this, List.reverse_append, List.reverse_reverse, List.reverse_cons, hdot]
              simp
            refine ⟨rr'.reverse, r2.dropWhile wordDot, ?_, ?_⟩
            · conv_lhs => rw [← List.takeWhile_append_dropWhile wordDot r2]
              rw [ht]
              simp
            · rcases hr3 : r2.dropWhile wordDot with _ | ⟨d, _⟩
              · rfl
              · have hd : wordDot d = false := dropWhile_head_false hr3
                have hdw : isWordChar d = false := by
                  rcases hb : isWordChar d
                  · rfl
                  · unfold wordDot at hd; rw [hb] at hd; simp at hd
                simp [nextOk, hdw]
      · exact absurd h (by simp)

theorem matchImport_some {l s : List Char} (h : matchImport l = some s) :
    s ≠ [] ∧ (∀ c ∈ s, isWordChar c = true) ∧ containsWord l s = true := by
  unfold matchImport at h
  split at h
  case isFalse => exact absurd h (by simp)
  case isTrue hpre =>
    split at h
    · exact absurd h (by simp)
    · obtain ⟨hne, hall, A, B, hr2, hB⟩ := matchImportCore_some h
      refine ⟨hne, hall, ?_⟩
      obtain ⟨u, hu⟩ : ∃ u, "import".data ++ u = l.dropWhile isSpace :=
        List.isPrefixOf_iff_prefix.mp hpre
      have hdrop : (l.dropWhile isSpace).drop 6 = u := by
        rw [← hu]
        have h6 : ("import".data).length = 6 := by decide
        rw [← h6, List.drop_left]
      have hl : l = (l.takeWhile isSpace ++ "import".data ++ u.takeWhile isSpace ++ A)
          ++ '.' :: (s ++ B) := by
        conv_lhs => rw [← List.takeWhile_append_dropWhile isSpace l, ← hu]
        rw [hdrop] at hr2
        conv_lhs => rw [← List.takeWhile_append_dropWhile isSpace u, hr2]
        simp
      rw [hl]
      exact containsWord_split _ '.' B isWordChar_dot hne hB

/-! ### The flagged indices and the kept lines -/

theorem mem_toRemoveGo {lines : List (List Char)} :
    ∀ (t : List (List Char)) (n i : Nat), i ∈ toRemoveGo lines n t →
      ∃ k l, t.get? k = some l ∧ i = n + k ∧ importCandidate lines i l = true := by
  intro t
  induction t with
  | nil => intro n i h; simp [toRemoveGo] at h
  | cons x rest ih =>
    intro n i h
    rw [toRemoveGo] at h
    split at h
    · rcases List.mem_cons.mp h with h1 | h2
      · subst h1
        exact ⟨0, x, by simp [List.get?_cons_zero], by omega, by assumption⟩
      · obtain ⟨k, l, hget, hik, hc⟩ := ih (n + 1) i h2
        exact ⟨k + 1, l, by simpa [List.get?_cons_succ] using hget, by omega, hc⟩
    · obtain ⟨k, l, hget, hik, hc⟩ := ih (n + 1) i h
      exact ⟨k + 1, l, by simpa [List.get?_cons_succ] using hget, by omega, hc⟩

theorem toRemoveGo_mem (lines : List (List Char)) :
    ∀ (t : List (List Char)) (n k : Nat) (l : List Char), t.get? k = some l →
      importCandidate lines (n + k) l = true → (n + k) ∈ toRemoveGo lines n t := by
  intro t
  induction t with
  | nil => intro n k l h _; simp [List.get?_nil] at h
  | cons x rest ih =>
    intro n k l hget hc
    rw [toRemoveGo]
    cases k with
    | zero =>
      rw [List.get?_cons_zero] at hget
      cases hget
      rw [if_pos (by simpa using hc)]
      simp
    | succ m =>
      rw [List.get?_cons_succ] at hget
      have : (n + 1) + m ∈ toRemoveGo lines (n + 1) rest :=
        ih (n + 1) m l hget (by rw [show n + 1 + m = n + (m + 1) from by omega]; exact hc)
      have hmem : n + (m + 1) ∈ toRemoveGo lines (n + 1) rest := by
        rw [show n + (m + 1) = n + 1 + m from by omega]; exact this
      split
      · exact List.mem_cons_of_mem _ hmem
      · exact hmem

theorem mem_toRemoveIdxs {lines : List (List Char)} {i : Nat} {l : List Char}
    (hget : lines.get? i = some l) (hc : importCandidate lines i l = true) :
    i ∈ toRemoveIdxs lines := by
  have := toRemoveGo_mem lines lines 0 i l hget (by simpa using hc)
  simpa [toRemoveIdxs] using this

theorem not_mem_toRemoveIdxs {lines : List (List Char)} {i : Nat} {l : List Char}
    (hget : lines.get? i = some l) (hc : importCandidate lines i l = false) :
    i ∉ toRemoveIdxs lines := by
  intro hmem
  obtain ⟨k, l', hget', hik, hc'⟩ := mem_toRemoveGo lines 0 i hmem
  have hk : k = i := by omega
  subst hk
  rw [hget] at hget'
  cases hget'
  rw [hc] at hc'
  exact absurd hc' (by simp)

theorem toRemoveGo_eq_nil {lines : List (List Char)} :
    ∀ (t : List (List Char)) (n : Nat), (∀ l ∈ t, isImportLine l = false) →
      toRemoveGo lines n t = [] := by
  intro t
  induction t with
  | nil => intro n _; rfl
  | cons x rest ih =>
    intro n hall
    rw [toRemoveGo]
    have hx : importCandidate lines n x = false := by
      unfold importCandidate
      rw [hall x (by simp)]
      simp
    rw [if_neg (by simp [hx])]
    exact ih (n + 1) (fun l hl => hall l (List.mem_cons_of_mem _ hl))

theorem toRemoveGo_eq_nil_of_none {out : List (List Char)} :
    ∀ (t : List (List Char)) (n : Nat),
      (∀ k l, t.get? k = some l → importCandidate out (n + k) l = false) →
      toRemoveGo out n t = [] := by
  intro t
  induction t with
  | nil => intro n _; rfl
  | cons x rest ih =>
    intro n hall
    rw [toRemoveGo]
    have hx : importCandidate out n x = false := by
      have := hall 0 x (by rw [List.get?_cons_zero])
      simpa using this
    rw [if_neg (by simp [hx])]
    exact ih (n + 1) fun k l hget => by
      have := hall (k + 1) l (by rw [List.get?_cons_succ]; exact hget)
      rw [show n + (k + 1) = n + 1 + k from by omega] at this
      exact this

theorem keepGo_sublist (rm : List Nat) :
    ∀ (t : List (List Char)) (n : Nat), (keepGo rm n t).Sublist t := by
  intro t
  induction t with
  | nil => intro n; exact List.nil_sublist _
  | cons x rest ih =>
    intro n
    rw [keepGo]
    split
    · exact (ih (n + 1)).cons x
    · exact (ih (n + 1)).cons₂ x

theorem keepGo_mem (rm : List Nat) :
    ∀ (t : List (List Char)) (n k : Nat) (x : List Char),
      t.get? k = some x → (n + k) ∉ rm → x ∈ keepGo rm n t := by
  intro t
  induction t with
  | nil => intro n k x h _; simp [List.get?_nil] at h
  | cons a rest ih =>
    intro n k x hget hnm
    rw [keepGo]
    cases k with
    | zero =>
      rw [List.get?_cons_zero] at hget
      cases hget
      rw [if_neg (by simpa using hnm)]
      simp
    | succ m =>
      rw [List.get?_cons_succ] at hget
      have hnm' : (n + 1) + m ∉ rm := by
        rw [show n + 1 + m = n + (m + 1) from by omega]; exact hnm
      have hmem := ih (n + 1) m x hget hnm'
      split
      · exact hmem
      · exact List.mem_cons_of_mem _ hmem

theorem keepGo_mem_inv (rm : List Nat) :
    ∀ (t : List (List Char)) (n : Nat) (x : List Char), x ∈ keepGo rm n t →
      ∃ k, t.get? k = some x ∧ (n + k) ∉ rm := by
  intro t
  induction t with
  | nil => intro n x h; simp [keepGo] at h
  | cons a rest ih =>
    intro n x h
    rw [keepGo] at h
    split at h
    · obtain ⟨k, hget, hnm⟩ := ih (n + 1) x h
      exact ⟨k + 1, by simpa [List.get?_cons_succ] using hget,
        by rw [show n + (k + 1) = n + 1 + k from by omega]; exact hnm⟩
    · rcases List.mem_cons.mp h with h1 | h2
      · subst h1
        exact ⟨0, by rw [List.get?_cons_zero], by simpa using ‹n ∉ rm›⟩
      · obtain ⟨k, hget, hnm⟩ := ih (n + 1) x h2
        exact ⟨k + 1, by simpa [List.get?_cons_succ] using hget,
          by rw [show n + (k + 1) = n + 1 + k from by omega]; exact hnm⟩

/-! ### The per-file pass -/

theorem processFile_eq_some {lines out : List (List Char)} (h : processFile lines = some out) :
    out = keepLines lines (toRemoveIdxs lines) := by
  unfold processFile at h
  split at h
  · split at h
    · exact absurd h (by simp)
    · cases h; rfl
  · exact absurd h (by simp)

theorem processFile_some_of_mem {lines : List (List Char)} {i : Nat} {l : List Char}
    (hget : lines.get? i = some l) (himp : isImportLine l = true)
    (hrm : i ∈ toRemoveIdxs lines) :
    processFile lines = some (keepLines lines (toRemoveIdxs lines)) := by
  unfold processFile
  rw [if_pos, if_neg (List.ne_nil_of_mem hrm)]
  exact List.any_eq_true.mpr ⟨l, List.get?_mem hget, himp⟩

theorem importCandidate_eq_true {lines : List (List Char)} {i : Nat} {l : List Char}
    (h : importCandidate lines i l = true) :
    isImportLine l = true ∧
      ∃ s, matchImport l = some s ∧ containsWord (joinNL (lines.eraseIdx i)) s = false := by
  unfold importCandidate at h
  rw [Bool.and_eq_true] at h
  obtain ⟨h1, h2⟩ := h
  refine ⟨h1, ?_⟩
  rcases hm : matchImport l with _ | s
  · rw [hm] at h2; simp at h2
  · rw [hm] at h2; exact ⟨s, rfl, by simpa using h2⟩

theorem importCandidate_true_of {lines : List (List Char)} {i : Nat} {l s : List Char}
    (himp : isImportLine l = true) (hm : matchImport l = some s)
    (hcw : containsWord (joinNL (lines.eraseIdx i)) s = false) :
    importCandidate lines i l = true := by
  unfold importCandidate
  rw [himp, hm]
  simp [hcw]

theorem importCandidate_false_of_none {lines : List (List Char)} {i : Nat} {l : List Char}
    (hm : matchImport l = none) : importCandidate lines i l = false := by
  unfold importCandidate
  rw [hm]
  simp

/-- If the simple name of a matching import line occurs as a whole word in a
different line of the file, the import line is not flagged. -/
theorem not_flagged_of_used {lines : List (List Char)} {i j : Nat} {l lj s : List Char}
    (hi : lines.get? i = some l) (hm : matchImport l = some s)
    (hj : lines.get? j = some lj) (hne : j ≠ i) (hu : containsWord lj s = true) :
    i ∉ toRemoveIdxs lines := by
  obtain ⟨hw, hall, _⟩ := matchImport_some hm
  intro hmem
  obtain ⟨k, l', hget', hik, hc'⟩ := mem_toRemoveGo lines 0 i hmem
  have hk : k = i := by omega
  subst hk
  rw [hi] at hget'
  cases hget'
  obtain ⟨_, s', hm', hcw⟩ := importCandidate_eq_true hc'
  rw [hm] at hm'
  cases hm'
  have hmemj : lj ∈ lines.eraseIdx k := get?_mem_eraseIdx lines k j lj hj hne
  rw [containsWord_joinNL hw hall] at hcw
  exact (List.any_eq_false.mp hcw lj hmemj) hu

/-- C1: a non-static import line that matches the import pattern and whose
simple name has no whole-word occurrence in any other line of the file is
flagged, the file is rewritten, the flagged line is absent from the result,
and the kept lines are exactly the unflagged lines in their original order. -/
theorem claim_C1 (lines : List (List Char)) (i : Nat) (l s : List Char)
    (hget : lines.get? i = some l)
    (himp : isImportLine l = true)
    (hmatch : matchImport l = some s)
    (hnouse : ∀ j, j < lines.length → j ≠ i → containsWord (lines.getD j []) s = false) :
    i ∈ toRemoveIdxs lines ∧
    processFile lines = some (keepLines lines (toRemoveIdxs lines)) ∧
    l ∉ keepLines lines (toRemoveIdxs lines) ∧
    (keepLines lines (toRemoveIdxs lines)).Sublist lines ∧
    (∀ j x, lines.get? j = some x → j ∉ toRemoveIdxs lines →
      x ∈ keepLines lines (toRemoveIdxs lines)) := by
  obtain ⟨hw, hall, hself⟩ := matchImport_some hmatch
  have hjoin : containsWord (joinNL (lines.eraseIdx i)) s = false := by
    rw [containsWord_joinNL hw hall]
    refine List.any_eq_false.mpr ?_
    intro x hx
    obtain ⟨j, hjne, hjget⟩ := mem_eraseIdx_get? lines i x hx
    obtain ⟨hjlt, -⟩ := List.get?_eq_some.mp hjget
    have hgd := getD_of_get? lines j x [] hjget
    have hn := hnouse j hjlt hjne
    rw [hgd] at hn
    simp [hn]
  have hcand := importCandidate_true_of himp hmatch hjoin
  have h1 : i ∈ toRemoveIdxs lines := mem_toRemoveIdxs hget hcand
  have h2 := processFile_some_of_mem hget himp h1
  refine ⟨h1, h2, ?_, ?_, ?_⟩
  · intro hmem
    obtain ⟨k, hkget, hknm⟩ :=
      keepGo_mem_inv (toRemoveIdxs lines) lines 0 l (by simpa [keepLines] using hmem)
    rw [Nat.zero_add] at hknm
    by_cases hki : k = i
    · subst hki
      exact hknm h1
    · obtain ⟨hklt, -⟩ := List.get?_eq_some.mp hkget
      have hn := hnouse k hklt hki
      rw [getD_of_get? lines k l [] hkget, hself] at hn
      exact absurd hn (by simp)
  · simpa [keepLines] using keepGo_sublist (toRemoveIdxs lines) lines 0
  · intro j x hjget hjnm
    have := keepGo_mem (toRemoveIdxs lines) lines 0 j x hjget (by simpa using hjnm)
    simpa [keepLines] using this

/-- Example file for the C1 witness: the `Baz` import is unused. -/
def exFileA : List (List Char) :=
  ["import com.foo.Baz;".data, "import com.foo.Bar;".data, "Bar.doThing()".data]

theorem claim_C1_witness :
    0 ∈ toRemoveIdxs exFileA ∧
      processFile exFileA = some (keepLines exFileA (toRemoveIdxs exFileA)) := by
  have h := claim_C1 exFileA 0 ("import com.foo.Baz;".data) ("Baz".data)
    (by decide) (by decide) (by decide) (by decide)
  exact ⟨h.1, h.2.1⟩

/-- C2: an import line that matches the import pattern and whose simple name
occurs as a whole word in some other line of the file is never flagged and is
present in the rewritten file. -/
theorem claim_C2 (lines : List (List Char)) (i j : Nat) (l lj s : List Char)
    (hi : lines.get? i = some l) (hj : lines.get? j = some lj) (hne : j ≠ i)
    (hm : matchImport l = some s) (hu : containsWord lj s = true) :
    i ∉ toRemoveIdxs lines ∧ ∀ out, processFile lines = some out → l ∈ out := by
  have hnr := not_flagged_of_used hi hm hj hne hu
  refine ⟨hnr, fun out hout => ?_⟩
  rw [processFile_eq_some hout]
  have := keepGo_mem (toRemoveIdxs lines) lines 0 i l hi (by simpa using hnr)
  simpa [keepLines] using this

/-- Example file for the C2 witness: the `Bar` import is used below. -/
def exFileB : List (List Char) :=
  ["import com.foo.Bar;".data, "Bar.doThing()".data]

theorem claim_C2_witness : 0 ∉ toRemoveIdxs exFileB :=
  (claim_C2 exFileB 0 1 ("import com.foo.Bar;".data) ("Bar.doThing()".data) ("Bar".data)
    (by decide) (by decide) (by decide) (by decide) (by decide)).1

/-- C4: a line whose stripped content starts with `import static` is never
flagged and is present in the rewritten file, regardless of usage. -/
theorem claim_C4 (lines : List (List Char)) (i : Nat) (l : List Char)
    (hi : lines.get? i = some l)
    (hstat : ("import static".data).isPrefixOf (stripL l) = true) :
    i ∉ toRemoveIdxs lines ∧ ∀ out, processFile lines = some out → l ∈ out := by
  have himp : isImportLine l = false := by
    unfold isImportLine
    rw [hstat]
    simp
  have hcand : importCandidate lines i l = false := by
    unfold importCandidate
    rw [himp]
    simp
  have hnr := not_mem_toRemoveIdxs hi hcand
  refine ⟨hnr, fun out hout => ?_⟩
  rw [processFile_eq_some hout]
  have := keepGo_mem (toRemoveIdxs lines) lines 0 i l hi (by simpa using hnr)
  simpa [keepLines] using this

/-- Example file for the C4 witness: a static import whose member name is
used nowhere else. -/
def exFileC : List (List Char) :=
  ["import static com.foo.Utils.helper;".data, "class A".data]

theorem claim_C4_witness : 0 ∉ toRemoveIdxs exFileC :=
  (claim_C4 exFileC 0 ("import static com.foo.Utils.helper;".data)
    (by decide) (by decide)).1

/-- C5 fails as stated: the script uses `re.match`, which only anchors the
pattern at the start of the line, so a line with extra content after the
semicolon still matches and is flagged when its simple name is unused. -/
theorem claim_C5_counterexample :
    toRemoveIdxs ["import a.B; trailing".data, "class C".data] = [0] ∧
      processFile ["import a.B; trailing".data, "class C".data] = some ["class C".data] := by
  constructor
  · decide
  · decide

/-- C5 (amended): a line is a removal candidate only if a prefix of it
matches `import <package-path>.<SimpleName> ;` allowing surrounding
whitespace; a line with no such prefix match (malformed or wildcard imports)
is never flagged and survives every rewrite.  Content after the semicolon
does not prevent the match. -/
theorem claim_C5_amended (lines : List (List Char)) (i : Nat) (l : List Char)
    (hi : lines.get? i = some l) (hm : matchImport l = none) :
    i ∉ toRemoveIdxs lines ∧ ∀ out, processFile lines = some out → l ∈ out := by
  have hnr := not_mem_toRemoveIdxs hi (importCandidate_false_of_none hm)
  refine ⟨hnr, fun out hout => ?_⟩
  rw [processFile_eq_some hout]
  have := keepGo_mem (toRemoveIdxs lines) lines 0 i l hi (by simpa using hnr)
  simpa [keepLines] using this

/-- Example file for the C5 witness: a wildcard import, which the pattern
does not match. -/
def exFileD : List (List Char) :=
  ["import com.foo.*;".data, "class B".data]

theorem claim_C5_witness : 0 ∉ toRemoveIdxs exFileD :=
  (claim_C5_amended exFileD 0 ("import com.foo.*;".data) (by decide) (by decide)).1

/-- C6: the usage check of one import is evaluated against all other lines of
the original file, including lines of other flagged imports: if the simple
name of import `i` occurs in line `j` and line `j` is itself flagged, import
`i` is still retained. -/
theorem claim_C6 (lines : List (List Char)) (i j : Nat) (l lj s : List Char)
    (hi : lines.get? i = some l) (hj : lines.get? j = some lj) (hne : j ≠ i)
    (hm : matchImport l = some s) (hu : containsWord lj s = true)
    (_hjflag : j ∈ toRemoveIdxs lines) :
    i ∉ toRemoveIdxs lines ∧ ∀ out, processFile lines = some out → l ∈ out := by
  have hnr := not_flagged_of_used hi hm hj hne hu
  refine ⟨hnr, fun out hout => ?_⟩
  rw [processFile_eq_some hout]
  have := keepGo_mem (toRemoveIdxs lines) lines 0 i l hi (by simpa using hnr)
  simpa [keepLines] using this

/-- Example file for the C6 witness: `Foo` occurs only inside the flagged
line that declares `Foo.Bar`. -/
def exFileE : List (List Char) :=
  ["import x.Foo;".data, "import Foo.Bar;".data, "class C".data]

theorem claim_C6_witness : 0 ∉ toRemoveIdxs exFileE :=
  (claim_C6 exFileE 0 1 ("import x.Foo;".data) ("import Foo.Bar;".data) ("Foo".data)
    (by decide) (by decide) (by decide) (by decide) (by decide) (by decide)).1

/-- C7: the script writes a file back exactly when at least one of its lines
is flagged for removal; in particular files without import lines, and files
where every import survives the check, are not written. -/
theorem claim_C7 (lines : List (List Char)) :
    processFile lines = none ↔ toRemoveIdxs lines = [] := by
  constructor
  · intro h
    unfold processFile at h
    split at h
    · split at h
      · assumption
      · exact absurd h (by simp)
    · rename_i hany
      refine toRemoveGo_eq_nil lines 0 fun l hl => ?_
      have := List.any_eq_false.mp (by simpa using Bool.of_not_eq_true hany) l hl
      simpa using this
  · intro h
    simp [processFile, h]

theorem claim_C7_witness :
    processFile ["class X".data] = none ↔ toRemoveIdxs ["class X".data] = [] :=
  claim_C7 ["class X".data]

/-- C9: duplicate import lines are never removed — each copy's usage check
sees the other copy, whose text contains the simple name as a whole word. -/
theorem claim_C9 (lines : List (List Char)) (i j : Nat) (l : List Char)
    (hi : lines.get? i = some l) (hj : lines.get? j = some l) (hne : i ≠ j) :
    i ∉ toRemoveIdxs lines ∧ j ∉ toRemoveIdxs lines ∧
      ∀ out, processFile lines = some out → l ∈ out := by
  have hkeep : ∀ a b : Nat, lines.get? a = some l → lines.get? b = some l → b ≠ a →
      a ∉ toRemoveIdxs lines := by
    intro a b ha hb hba
    rcases hm : matchImport l with _ | s
    · exact not_mem_toRemoveIdxs ha (importCandidate_false_of_none hm)
    · obtain ⟨-, -, hself⟩ := matchImport_some hm
      exact not_flagged_of_used ha hm hb hba hself
  have h1 := hkeep i j hi hj (Ne.symm hne)
  have h2 := hkeep j i hj hi hne
  refine ⟨h1, h2, fun out hout => ?_⟩
  rw [processFile_eq_some hout]
  have := keepGo_mem (toRemoveIdxs lines) lines 0 i l hi (by simpa using h1)
  simpa [keepLines] using this

/-- Example file for the C9 witness: the same unused import appears twice. -/
def exFileF : List (List Char) :=
  ["import a.B;".data, "import a.B;".data, "class D".data]

theorem claim_C9_witness :
    0 ∉ toRemoveIdxs exFileF ∧ 1 ∉ toRemoveIdxs exFileF := by
  have h := claim_C9 exFileF 0 1 ("import a.B;".data) (by decide) (by decide) (by decide)
  exact ⟨h.1, h.2.1⟩

/-! ### Idempotence of a second run -/

theorem anyOtherGo_spec {s : List Char} {i : Nat} :
    ∀ (t : List (List Char)) (j : Nat), anyOtherGo s i j t = true →
      ∃ k l, t.get? k = some l ∧ (j + k) ≠ i ∧ containsWord l s = true := by
  intro t
  induction t with
  | nil => intro j h; simp [anyOtherGo] at h
  | cons x rest ih =>
    intro j h
    rw [anyOtherGo] at h
    simp only [Bool.or_eq_true, Bool.and_eq_true] at h
    rcases h with ⟨hbne, hcw⟩ | h2
    · exact ⟨0, x, by rw [List.get?_cons_zero], by simpa using bne_iff_ne.mp hbne, hcw⟩
    · obtain ⟨k, l, hget, hne, hcw⟩ := ih (j + 1) h2
      exact ⟨k + 1, l, by simpa [List.get?_cons_succ] using hget,
        by rw [show j + (k + 1) = j + 1 + k from by omega]; exact hne, hcw⟩

theorem usageStableGo_spec (out : List (List Char)) :
    ∀ (t : List (List Char)) (n : Nat), usageStableGo out n t = true →
      ∀ k l, t.get? k = some l → ∀ s, matchImport l = some s →
        anyOtherGo s (n + k) 0 out = true := by
  intro t
  induction t with
  | nil => intro n _ k l hget; simp [List.get?_nil] at hget
  | cons x rest ih =>
    intro n h k l hget s hm
    rw [usageStableGo] at h
    rw [Bool.and_eq_true] at h
    obtain ⟨h1, h2⟩ := h
    cases k with
    | zero =>
      rw [List.get?_cons_zero] at hget
      cases hget
      rw [hm] at h1
      simpa using h1
    | succ m =>
      rw [List.get?_cons_succ] at hget
      have := ih (n + 1) h2 m l hget s hm
      rw [show n + (m + 1) = n + 1 + m from by omega]
      exact this

/-- C3 fails as stated: on this file the first run keeps the `Foo` import
(its name occurs inside the `Foo.Bar` line) and removes the `Bar` one; the
second run then finds `Foo` unused and flags it, so it is not a no-op. -/
theorem claim_C3_counterexample :
    processFile (["import x.Foo;".data, "import Foo.Bar;".data, "class C".data]) =
        some (["import x.Foo;".data, "class C".data]) ∧
      toRemoveIdxs (["import x.Foo;".data, "class C".data]) ≠ [] := by
  constructor
  · decide
  · decide

/-- C3 (amended): a second run of the tool flags nothing on a rewritten file
provided every line of the rewritten file that parses as an import has its
simple name occurring as a whole word in some other kept line; without that
proviso — an import whose name occurred only inside a removed import line —
the second run can remove further imports, so the tool is not idempotent in
general. -/
theorem claim_C3_amended (lines out : List (List Char))
    (_hrun : processFile lines = some out) (hstable : usageStable out = true) :
    toRemoveIdxs out = [] := by
  refine toRemoveGo_eq_nil_of_none out 0 fun k l hget => ?_
  rw [Nat.zero_add]
  rcases hm : matchImport l with _ | s
  · exact importCandidate_false_of_none hm
  · obtain ⟨hw, hall, -⟩ := matchImport_some hm
    have hany := usageStableGo_spec out out 0 hstable k l hget s hm
    rw [Nat.zero_add] at hany
    obtain ⟨j, lj, hjget, hjne, hjcw⟩ := anyOtherGo_spec out 0 hany
    rw [Nat.zero_add] at hjne
    have hmemj : lj ∈ out.eraseIdx k :=
      get?_mem_eraseIdx out k j lj hjget (by omega)
    have hjoin : containsWord (joinNL (out.eraseIdx k)) s = true := by
      rw [containsWord_joinNL hw hall]
      exact List.any_eq_true.mpr ⟨lj, hmemj, hjcw⟩
    unfold importCandidate
    rw [hm]
    simp [hjoin]

/-- Example run for the C3 witness: the rewritten file keeps an import whose
name occurs in a kept line, so the second run flags nothing. -/
def exFileG : List (List Char) :=
  ["import a.B;".data, "import c.D;".data, "D x".data]

/-- The rewritten contents of `exFileG` after the first run. -/
def exFileGout : List (List Char) :=
  ["import c.D;".data, "D x".data]

theorem claim_C3_witness : toRemoveIdxs exFileGout = [] :=
  claim_C3_amended exFileG exFileGout (by decide) (by decide)

/-! ### Console output -/

theorem runAux_eq :
    ∀ (files : List (List Char × List Char)) (acc : Nat),
      runAux files acc =
        ((files.filterMap fun f =>
            if fileRemovedCount f.2 = 0 then none
            else some (msgRemoved (fileRemovedCount f.2) f.1)),
          acc + (files.map fun f => fileRemovedCount f.2).sum) := by
  intro files
  induction files with
  | nil => intro acc; simp [runAux]
  | cons f rest ih =>
    intro acc
    rw [runAux]
    by_cases hany : (splitlines f.2).any isImportLine = true
    · rw [if_pos hany]
      by_cases hrm : toRemoveIdxs (splitlines f.2) = []
      · rw [if_pos hrm, ih acc]
        have hcnt : fileRemovedCount f.2 = 0 := by simp [fileRemovedCount, hrm]
        simp [List.filterMap_cons, hcnt]
      · rw [if_neg hrm, ih (acc + (toRemoveIdxs (splitlines f.2)).length)]
        have hcnt : ¬ fileRemovedCount f.2 = 0 := by
          simpa [fileRemovedCount, List.length_eq_zero] using hrm
        rw [List.filterMap_cons, List.map_cons, List.sum_cons, if_neg hcnt]
        simp only [Prod.mk.injEq]
        exact ⟨rfl, Nat.add_assoc _ _ _⟩
    · rw [if_neg hany]
      have hrm : toRemoveIdxs (splitlines f.2) = [] := by
        refine toRemoveGo_eq_nil _ 0 fun l hl => ?_
        have hfalse : (splitlines f.2).any isImportLine = false := by
          simpa using hany
        simpa using List.any_eq_false.mp hfalse l hl
      rw [ih acc]
      have hcnt : fileRemovedCount f.2 = 0 := by simp [fileRemovedCount, hrm]
      simp [List.filterMap_cons, hcnt]

/-- C8: the console output is one line `Removed <count> imports from <path>`
for exactly the files with a non-zero removal count (in traversal order,
with the file's own count), followed by a single final line
`DONE. Total removed: <total>` whose total is the sum of the per-file
counts. -/
theorem claim_C8 (files : List (List Char × List Char)) :
    runOutput files =
      (files.filterMap fun f =>
        if fileRemovedCount f.2 = 0 then none
        else some (msgRemoved (fileRemovedCount f.2) f.1))
      ++ [msgDone ((files.map fun f => fileRemovedCount f.2).sum)] := by
  unfold runOutput
  rw [runAux_eq files 0]
  simp

/-- Example file list for the C8 witness. -/
def exRun : List (List Char × List Char) :=
  [("f".data, "import a.B;\nclass C".data)]

theorem claim_C8_witness :
    runOutput exRun =
      (exRun.filterMap fun f =>
        if fileRemovedCount f.2 = 0 then none
        else some (msgRemoved (fileRemovedCount f.2) f.1))
      ++ [msgDone ((exRun.map fun f => fileRemovedCount f.2).sum)] :=
  claim_C8 exRun

/-! ### The written text -/

theorem isLineBreak_nl : isLineBreak '\n' = true := by decide

theorem isLineBreak_cr : isLineBreak '\r' = true := by decide

theorem slAux_no_break :
    ∀ (cs : List Char) (flag : Bool) (acc : List Char),
      (∀ c ∈ acc, isLineBreak c = false) →
      ∀ l ∈ slAux flag acc cs, ∀ c ∈ l, isLineBreak c = false := by
  intro cs
  induction cs with
  | nil =>
    intro flag acc hacc l hl c hc
    rw [slAux] at hl
    split at hl
    · simp at hl
    · simp only [List.mem_singleton] at hl
      subst hl
      exact hacc c (List.mem_reverse.mp hc)
  | cons x rest ih =>
    intro flag acc hacc l hl c hc
    rw [slAux] at hl
    split_ifs at hl with h1 h2 h3
    · exact ih false acc hacc l hl c hc
    · rcases List.mem_cons.mp hl with he | ht
      · subst he; exact hacc c (List.mem_reverse.mp hc)
      · exact ih true [] (by simp) l ht c hc
    · rcases List.mem_cons.mp hl with he | ht
      · subst he; exact hacc c (List.mem_reverse.mp hc)
      · exact ih false [] (by simp) l ht c hc
    · refine ih false (x :: acc) ?_ l hl c hc
      intro c' hc'
      rcases List.mem_cons.mp hc' with he | ht
      · subst he
        simpa using h3
      · exact hacc c' ht

theorem slAux_tail_congr {c : Char} {T1 T2 : List Char}
    (h : ∀ flag acc, slAux flag acc (c :: T1) = slAux flag acc (c :: T2)) :
    ∀ (s : List Char) (flag : Bool) (acc : List Char),
      slAux flag acc (s ++ c :: T1) = slAux flag acc (s ++ c :: T2) := by
  intro s
  induction s with
  | nil => intro flag acc; exact h flag acc
  | cons x s' ih =>
    intro flag acc
    simp only [List.cons_append, slAux, List.append_eq]
    split_ifs with h1 h2 h3
    · exact ih false acc
    · rw [ih true []]
    · rw [ih false []]
    · exact ih false (x :: acc)

theorem slAux_drop_final_nl {c : Char} (hc : isLineBreak c = false) :
    ∀ (flag : Bool) (acc : List Char), slAux flag acc [c, '\n'] = slAux flag acc [c] := by
  intro flag acc
  have hcn : c ≠ '\n' := by
    intro he; rw [he, isLineBreak_nl] at hc; exact absurd hc (by simp)
  have hcr : c ≠ '\r' := by
    intro he; rw [he, isLineBreak_cr] at hc; exact absurd hc (by simp)
  simp [slAux, hc, hcn, hcr, isLineBreak_nl]

/-- Appending a final newline to a text that ends in a non-break character
does not change its lines. -/
theorem splitlines_snoc_nl {c : Char} (hc : isLineBreak c = false) (t : List Char) :
    splitlines (t ++ [c, '\n']) = splitlines (t ++ [c]) := by
  unfold splitlines
  exact slAux_tail_congr (slAux_drop_final_nl hc) t false []

/-- C10 fails as stated: for a file whose last line is empty (the text ends
with two newlines), the rewritten content ends with a line terminator. -/
theorem claim_C10_counterexample :
    processText ("import a.B;\nx\n\n".data) = some ("x\n".data) ∧
      ("x\n".data).getLast? = some '\n' := by
  constructor
  · decide
  · decide

/-- C10 (amended): whenever a file is rewritten, its new content is exactly
the kept lines joined by a single `'\n'` with no terminator appended after
the last kept line (so the content ends in a terminator only when the last
kept line is empty); the kept lines themselves contain no line-break
characters, so every original `'\r\n'` or `'\r'` ending becomes `'\n'`, and a
file whose text ends in a single final newline is processed exactly like the
same text without it. -/
theorem claim_C10_amended :
    (∀ text out, processText text = some out →
        out = joinNL (keepLines (splitlines text) (toRemoveIdxs (splitlines text))) ∧
        ∀ l ∈ keepLines (splitlines text) (toRemoveIdxs (splitlines text)),
          ∀ c ∈ l, isLineBreak c = false) ∧
    (∀ (text : List Char) (c : Char), isLineBreak c = false →
        processText (text ++ [c, '\n']) = processText (text ++ [c])) := by
  constructor
  · intro text out h
    obtain ⟨pf, hpf, hout⟩ := Option.map_eq_some'.mp h
    have heq := processFile_eq_some hpf
    refine ⟨by rw [← hout, heq], ?_⟩
    intro l hl c hc
    have hsub : l ∈ splitlines text := by
      have hs := keepGo_sublist (toRemoveIdxs (splitlines text)) (splitlines text) 0
      exact hs.subset (by simpa [keepLines] using hl)
    exact slAux_no_break text false [] (by simp) l hsub c hc
  · intro text c hc
    unfold processText
    rw [splitlines_snoc_nl hc text]

theorem claim_C10_witness :
    processText ("import a.B;\nx".data ++ ['w', '\n']) =
      processText ("import a.B;\nx".data ++ ['w']) :=
  claim_C10_amended.2 ("import a.B;\nx".data) 'w' (by decide)

end RemoveUnusedImports
